import Mathlib

/-!
Shallow embedding of the Go-LRU cache (src/lru/lru.go) and verification of the
specification claims.

Modelling choices, each tied to the source:
* `LRUItem` carries `Value` and `Size` (Go ints become `Int`; the claims stay in
  ranges where 64-bit overflow does not occur).
* The Go `container/list` recency list stores `*LRUItem` nodes and each item
  carries back-references `elementListItem` / `elementKey`; here a node is the
  pair `(key, item)`, so the back-references are structural.  `orderedItems`
  has the most-recently-used element at the front, as in the Go code.
* The Go map `items` is modelled as an association list with map semantics
  (`mapLookup`, `mapInsert`, `mapDelete`).  Through the public interface keys
  are always unique in the map, and removal of the node referenced by
  `elementListItem` is removal of the unique pair with that key.
* The callbacks are modelled outside the state: the `producer` is a parameter
  of `Get`, and every `onevict(key, item)` invocation is recorded by appending
  to the `evictLog` trace field.
* The `for` loop of `evictAsNeeded` runs with fuel equal to the length of the
  recency list; every iteration removes one list node, so the fuel is exact.
-/

set_option linter.unusedSectionVars false

namespace LRU

/-- Single cache item (Go `LRUItem`): the stored `Value` and its `Size` cost. -/
structure LRUItem (V : Type) where
  Value : V
  Size : Int
deriving DecidableEq

/-- Cache state (Go `LRUCache`).  `orderedItems` is the recency list
(front = most recently used), `items` the key index, `evictLog` the trace of
`onevict` invocations in order. -/
structure LRUCache (K V : Type) where
  maxSize : Int
  currentSize : Int
  orderedItems : List (K × LRUItem V)
  items : List (K × LRUItem V)
  evictLog : List (K × LRUItem V)
deriving DecidableEq

variable {K V : Type} [DecidableEq K]

/-- Go map read `cache.items[key]`. -/
def mapLookup (key : K) : List (K × LRUItem V) → Option (LRUItem V)
  | [] => none
  | p :: rest => if p.1 = key then some p.2 else mapLookup key rest

/-- Removes the first pair with the given key.  This models both the Go map
`delete(cache.items, key)` and `orderedItems.Remove(element.elementListItem)`:
in every state reachable through the public interface a key occurs at most
once, so first-match removal is exact. -/
def listRemove (key : K) : List (K × LRUItem V) → List (K × LRUItem V)
  | [] => []
  | p :: rest => if p.1 = key then rest else p :: listRemove key rest

/-- Go map `delete(cache.items, key)`. -/
def mapDelete (key : K) (m : List (K × LRUItem V)) : List (K × LRUItem V) :=
  listRemove key m

/-- Go map write `cache.items[key] = element`. -/
def mapInsert (key : K) (v : LRUItem V) (m : List (K × LRUItem V)) :
    List (K × LRUItem V) :=
  (key, v) :: listRemove key m

/-- The list node holding the given key (the node `element.elementListItem`
points to in the Go code). -/
def findNode (key : K) : List (K × LRUItem V) → Option (K × LRUItem V)
  | [] => none
  | p :: rest => if p.1 = key then some p else findNode key rest

/-- Go `cache.orderedItems.MoveToFront(element.elementListItem)`. -/
def moveToFront (key : K) (l : List (K × LRUItem V)) : List (K × LRUItem V) :=
  match findNode key l with
  | some p => p :: listRemove key l
  | none => l

/-- Go `cache.orderedItems.Back()`: the last node, `none` when empty. -/
def backNode : List (K × LRUItem V) → Option (K × LRUItem V)
  | [] => none
  | [p] => some p
  | _ :: q :: rest => backNode (q :: rest)

/-- Go `evictElement`: subtract the size, delete from the index, remove the
list node, invoke `onevict` (recorded on `evictLog`). -/
def evictElement (key : K) (element : LRUItem V) (c : LRUCache K V) :
    LRUCache K V :=
  { c with
    currentSize := c.currentSize - element.Size
    items := mapDelete key c.items
    orderedItems := listRemove key c.orderedItems
    evictLog := c.evictLog ++ [(key, element)] }

/-- The `for` loop of Go `evictAsNeeded`, with explicit fuel.  The loop body
evicts the back of the recency list while `currentSize > maxSize` and the list
is non-empty. -/
def evictAsNeededGo : Nat → LRUCache K V → LRUCache K V
  | 0, c => c
  | fuel + 1, c =>
    match backNode c.orderedItems with
    | some back =>
        if c.maxSize < c.currentSize then
          evictAsNeededGo fuel (evictElement back.1 back.2 c)
        else c
    | none => c

/-- Go `evictAsNeeded`: each iteration removes one node, so fuel equal to the
list length is exact. -/
def evictAsNeeded (c : LRUCache K V) : LRUCache K V :=
  evictAsNeededGo c.orderedItems.length c

/-- Go `putItem`: add the size, push the node to the front, index the item,
then run the eviction pass. -/
def putItem (key : K) (element : LRUItem V) (c : LRUCache K V) : LRUCache K V :=
  evictAsNeeded
    { c with
      currentSize := c.currentSize + element.Size
      orderedItems := (key, element) :: c.orderedItems
      items := mapInsert key element c.items }

/-- Go `produceItem`. -/
def produceItem (producer : Option (K → Option (LRUItem V))) (key : K)
    (c : LRUCache K V) : LRUCache K V × Option (LRUItem V) :=
  match producer with
  | none => (c, none)
  | some prod =>
    match prod key with
    | none => (c, none)
    | some element => (putItem key element c, some element)

/-- Go `Get`: on a hit, promote the node to the front and return the item; on
a miss, defer to the producer. -/
def Get (producer : Option (K → Option (LRUItem V))) (key : K)
    (c : LRUCache K V) : LRUCache K V × Option (LRUItem V) :=
  match mapLookup key c.items with
  | some element =>
      ({ c with orderedItems := moveToFront key c.orderedItems }, some element)
  | none => produceItem producer key c

/-- Go `Put`: duplicate keys are an error, otherwise insert.  The second
component is the returned `error` (`none` = Go `nil`). -/
def Put (key : K) (element : LRUItem V) (c : LRUCache K V) :
    LRUCache K V × Option String :=
  match mapLookup key c.items with
  | some _ => (c, some "Key already exists")
  | none => (putItem key element c, none)

/-- Go `Replace`: evict the existing entry, if any, then insert. -/
def Replace (key : K) (element : LRUItem V) (c : LRUCache K V) :
    LRUCache K V × Option String :=
  match mapLookup key c.items with
  | some item => (putItem key element (evictElement key item c), none)
  | none => (putItem key element c, none)

/-- Go `Evict`: remove and return the entry for the key, if present. -/
def Evict (key : K) (c : LRUCache K V) : LRUCache K V × Option (LRUItem V) :=
  match mapLookup key c.items with
  | some item => (evictElement key item c, some item)
  | none => (c, none)

/-- The `for key, value := range cache.items` loop of Go `EvictIf`: the loop
ranges over the entries present when the loop starts (the only entry deleted
per iteration is the one just produced). -/
def evictIfLoop (pred : K → Bool) :
    List (K × LRUItem V) → LRUCache K V → LRUCache K V
  | [], c => c
  | p :: rest, c =>
      if pred p.1 then evictIfLoop pred rest (evictElement p.1 p.2 c)
      else evictIfLoop pred rest c

/-- Go `EvictIf`: evict every entry whose key satisfies the predicate; the
function always returns `nil`. -/
def EvictIf (pred : K → Bool) (c : LRUCache K V) :
    LRUCache K V × Option (LRUItem V) :=
  (evictIfLoop pred c.items c, none)

/-- Go `MakeRoom`: temporarily lower `maxSize`, run the eviction pass, then
restore it. -/
def MakeRoom (size : Int) (c : LRUCache K V) : LRUCache K V :=
  let c1 := evictAsNeeded { c with maxSize := c.maxSize - size }
  { c1 with maxSize := c1.maxSize + size }

/-- Go `EmptySpace`. -/
def EmptySpace (c : LRUCache K V) : Int := c.maxSize - c.currentSize

/-- Go `MaxSize`. -/
def MaxSize (c : LRUCache K V) : Int := c.maxSize

/-- Go `Has`. -/
def Has (key : K) (c : LRUCache K V) : Bool := (mapLookup key c.items).isSome

/-- Go `New`: construction fails when `maxSize ≤ 0`; otherwise the cache
starts empty. -/
def New (maxSize : Int) : Option (LRUCache K V) :=
  if maxSize ≤ 0 then none
  else some { maxSize := maxSize, currentSize := 0, orderedItems := [],
              items := [], evictLog := [] }

/-- One public mutating operation, for reasoning about operation sequences. -/
inductive Op (K V : Type) where
  | put (key : K) (element : LRUItem V)
  | get (key : K)
  | replace (key : K) (element : LRUItem V)
  | evict (key : K)
  | evictIf (pred : K → Bool)
  | makeRoom (amount : Int)

/-- Apply one public operation (the cache's configured producer is passed
through to `Get`). -/
def applyOp (producer : Option (K → Option (LRUItem V))) (c : LRUCache K V) :
    Op K V → LRUCache K V
  | .put key element => (Put key element c).1
  | .get key => (Get producer key c).1
  | .replace key element => (Replace key element c).1
  | .evict key => (Evict key c).1
  | .evictIf pred => (EvictIf pred c).1
  | .makeRoom amount => MakeRoom amount c

/-- Apply a sequence of public operations. -/
def run (producer : Option (K → Option (LRUItem V))) (c : LRUCache K V) :
    List (Op K V) → LRUCache K V
  | [] => c
  | op :: rest => run producer (applyOp producer c op) rest

/-- The keys of an association list. -/
def keysOf (m : List (K × LRUItem V)) : List K := m.map Prod.fst

/-- Sum of the `Size` fields. -/
def sumSizes (m : List (K × LRUItem V)) : Int := (m.map (fun p => p.2.Size)).sum

/-- Well-formedness of a cache state, true in every state reachable through
the public interface: the size accountant agrees with the index, keys are
unique, and index and recency list hold the same entries. -/
def Wf (c : LRUCache K V) : Prop :=
  c.currentSize = sumSizes c.items ∧ (keysOf c.items).Nodup ∧
    c.items.Perm c.orderedItems

instance instDecidableWf [DecidableEq V] (c : LRUCache K V) : Decidable (Wf c) :=
  inferInstanceAs (Decidable (_ ∧ _ ∧ _))

/-- All items present in the cache have non-negative sizes (the spec's data
model; the code never checks it, see the claim about negative sizes). -/
def NonNegSizes (c : LRUCache K V) : Prop := ∀ p ∈ c.items, 0 ≤ p.2.Size

instance instDecidableNonNeg (c : LRUCache K V) : Decidable (NonNegSizes c) :=
  inferInstanceAs (Decidable (∀ p ∈ c.items, 0 ≤ p.2.Size))

/-- The capacity post-condition: within budget, or the recency list has been
drained to empty. -/
def CapOk (c : LRUCache K V) : Prop :=
  c.currentSize ≤ c.maxSize ∨ c.orderedItems = []

instance instDecidableCapOk [DecidableEq V] (c : LRUCache K V) :
    Decidable (CapOk c) :=
  inferInstanceAs (Decidable (_ ∨ _))

/-- Side condition on an operation: `MakeRoom` is called with a non-negative
amount; all other operations are unconstrained. -/
def opSideOk : Op K V → Prop
  | .makeRoom amount => 0 ≤ amount
  | _ => True

/-- The empty cache with the given capacity, as built by a successful `New`. -/
def fresh (m : Int) : LRUCache String String :=
  { maxSize := m, currentSize := 0, orderedItems := [], items := [],
    evictLog := [] }

theorem keysOf_cons (k : K) (v : LRUItem V) (m : List (K × LRUItem V)) :
    keysOf ((k, v) :: m) = k :: keysOf m := rfl

theorem mem_keysOf_of_mem {p : K × LRUItem V} {m : List (K × LRUItem V)}
    (h : p ∈ m) : p.1 ∈ keysOf m :=
  List.mem_map_of_mem Prod.fst h

theorem mapLookup_eq_none {key : K} {m : List (K × LRUItem V)} :
    mapLookup key m = none ↔ key ∉ keysOf m := by
  induction m with
  | nil => simp [mapLookup, keysOf]
  | cons p rest ih =>
      obtain ⟨k, v⟩ := p
      by_cases h : k = key
      · subst h
        simp [mapLookup, keysOf]
      · simp [mapLookup, h, keysOf] at ih ⊢
        constructor
        · intro hl
          exact ⟨fun he => h he.symm, (ih.mp hl)⟩
        · intro hr
          exact ih.mpr hr.2

theorem mapLookup_mem {key : K} {v : LRUItem V} {m : List (K × LRUItem V)}
    (h : mapLookup key m = some v) : (key, v) ∈ m := by
  induction m with
  | nil => simp [mapLookup] at h
  | cons p rest ih =>
      obtain ⟨k, w⟩ := p
      by_cases hp : k = key
      · subst hp
        simp [mapLookup] at h
        subst h
        exact List.mem_cons_self _ _
      · simp [mapLookup, hp] at h
        exact List.mem_cons_of_mem _ (ih h)

theorem mapLookup_of_mem_nodup {key : K} {v : LRUItem V}
    {m : List (K × LRUItem V)} (hnd : (keysOf m).Nodup) (hm : (key, v) ∈ m) :
    mapLookup key m = some v := by
  induction m with
  | nil => simp at hm
  | cons p rest ih =>
      obtain ⟨k, w⟩ := p
      rw [keysOf_cons, List.nodup_cons] at hnd
      rcases List.mem_cons.mp hm with heq | hmem
      · rw [Prod.ext_iff] at heq
        simp at heq
        obtain ⟨h1, h2⟩ := heq
        subst h1; subst h2
        simp [mapLookup]
      · by_cases hp : k = key
        · exact absurd (by rw [hp]; exact mem_keysOf_of_mem hmem) hnd.1
        · simp [mapLookup, hp]
          exact ih hnd.2 hmem

theorem listRemove_of_not_mem {key : K} {m : List (K × LRUItem V)}
    (h : key ∉ keysOf m) : listRemove key m = m := by
  induction m with
  | nil => rfl
  | cons p rest ih =>
      obtain ⟨k, v⟩ := p
      rw [keysOf_cons] at h
      have h1 : ¬ k = key := fun he => h (by rw [he]; exact List.mem_cons_self _ _)
      have h2 : key ∉ keysOf rest := fun hm => h (List.mem_cons_of_mem _ hm)
      simp [listRemove, h1, ih h2]

theorem listRemove_sublist (key : K) (m : List (K × LRUItem V)) :
    (listRemove key m).Sublist m := by
  induction m with
  | nil => simp [listRemove]
  | cons p rest ih =>
      by_cases h : p.1 = key
      · simp [listRemove, h]
      · simpa [listRemove, h] using List.Sublist.cons₂ p ih

theorem keysOf_sublist_of_sublist {m m' : List (K × LRUItem V)}
    (h : m.Sublist m') : (keysOf m).Sublist (keysOf m') :=
  List.Sublist.map Prod.fst h

theorem keysOf_listRemove_nodup {key : K} {m : List (K × LRUItem V)}
    (h : (keysOf m).Nodup) : (keysOf (listRemove key m)).Nodup :=
  List.Nodup.sublist (keysOf_sublist_of_sublist (listRemove_sublist key m)) h

theorem not_mem_keysOf_listRemove {key : K} {m : List (K × LRUItem V)}
    (h : (keysOf m).Nodup) : key ∉ keysOf (listRemove key m) := by
  induction m with
  | nil => simp [listRemove, keysOf]
  | cons p rest ih =>
      obtain ⟨k, v⟩ := p
      rw [keysOf_cons, List.nodup_cons] at h
      by_cases hp : k = key
      · subst hp
        simpa [listRemove] using h.1
      · simp only [listRemove, if_neg hp, keysOf_cons]
        intro hmem
        rcases List.mem_cons.mp hmem with he | hm
        · exact hp he.symm
        · exact ih h.2 hm

theorem length_listRemove {key : K} {m : List (K × LRUItem V)}
    (h : key ∈ keysOf m) : (listRemove key m).length + 1 = m.length := by
  induction m with
  | nil => simp [keysOf] at h
  | cons p rest ih =>
      obtain ⟨k, v⟩ := p
      by_cases hp : k = key
      · simp [listRemove, hp]
      · simp [keysOf] at h
        rcases h with h | h
        · exact absurd h.symm hp
        · simp [listRemove, hp]
          exact ih (by simpa [keysOf] using h)

theorem perm_cons_listRemove_of_findNode {key : K} {p : K × LRUItem V}
    {m : List (K × LRUItem V)} (h : findNode key m = some p) :
    m.Perm (p :: listRemove key m) := by
  induction m with
  | nil => simp [findNode] at h
  | cons q rest ih =>
      by_cases hq : q.1 = key
      · simp [findNode, hq] at h
        subst h
        simp [listRemove, hq]
      · simp [findNode, hq] at h
        refine List.Perm.trans (List.Perm.cons _ (ih h)) ?_
        simpa [listRemove, hq] using List.Perm.swap p q _

theorem findNode_of_mem_nodup {key : K} {v : LRUItem V}
    {m : List (K × LRUItem V)} (hnd : (keysOf m).Nodup) (hm : (key, v) ∈ m) :
    findNode key m = some (key, v) := by
  induction m with
  | nil => simp at hm
  | cons q rest ih =>
      obtain ⟨k, w⟩ := q
      rcases List.mem_cons.mp hm with heq | hmem
      · rw [Prod.ext_iff] at heq
        simp at heq
        obtain ⟨h1, h2⟩ := heq
        subst h1; subst h2
        simp [findNode]
      · rw [keysOf_cons, List.nodup_cons] at hnd
        by_cases hq : k = key
        · exact absurd (by rw [hq]; exact mem_keysOf_of_mem hmem) hnd.1
        · simp [findNode, hq]
          exact ih hnd.2 hmem

theorem perm_cons_listRemove {key : K} {v : LRUItem V}
    {m : List (K × LRUItem V)} (hnd : (keysOf m).Nodup) (hm : (key, v) ∈ m) :
    m.Perm ((key, v) :: listRemove key m) :=
  perm_cons_listRemove_of_findNode (findNode_of_mem_nodup hnd hm)

theorem sumSizes_listRemove {key : K} {v : LRUItem V}
    {m : List (K × LRUItem V)} (hnd : (keysOf m).Nodup) (hm : (key, v) ∈ m) :
    sumSizes (listRemove key m) = sumSizes m - v.Size := by
  have hperm := perm_cons_listRemove hnd hm
  have := List.Perm.sum_eq (List.Perm.map (fun p => p.2.Size) hperm)
  simp [sumSizes] at this ⊢
  omega

theorem mem_listRemove_of_ne {p : K × LRUItem V} {key : K}
    {m : List (K × LRUItem V)} (hp : p ∈ m) (hne : p.1 ≠ key) :
    p ∈ listRemove key m := by
  induction m with
  | nil => simp at hp
  | cons q rest ih =>
      rcases List.mem_cons.mp hp with heq | hmem
      · subst heq
        simp [listRemove, hne]
      · by_cases hq : q.1 = key
        · simpa [listRemove, hq] using hmem
        · simp [listRemove, hq]
          exact Or.inr (ih hmem)

theorem listRemove_eq_filter {key : K} {m : List (K × LRUItem V)}
    (hnd : (keysOf m).Nodup) :
    listRemove key m = m.filter (fun p => !decide (p.1 = key)) := by
  induction m with
  | nil => rfl
  | cons p rest ih =>
      obtain ⟨k, v⟩ := p
      rw [keysOf_cons, List.nodup_cons] at hnd
      by_cases hp : k = key
      · subst hp
        rw [show listRemove k ((k, v) :: rest) = rest from by simp [listRemove]]
        rw [List.filter_cons_of_neg (by simp)]
        symm
        rw [List.filter_eq_self]
        intro a ha
        simp
        intro he
        exact hnd.1 (he ▸ mem_keysOf_of_mem ha)
      · simp [listRemove, hp, ih hnd.2]

theorem findNode_eq_some {key : K} {p : K × LRUItem V}
    {m : List (K × LRUItem V)} (h : findNode key m = some p) :
    p.1 = key ∧ p ∈ m := by
  induction m with
  | nil => simp [findNode] at h
  | cons q rest ih =>
      by_cases hq : q.1 = key
      · simp [findNode, hq] at h
        subst h
        exact ⟨hq, List.mem_cons_self _ _⟩
      · simp [findNode, hq] at h
        obtain ⟨h1, h2⟩ := ih h
        exact ⟨h1, List.mem_cons_of_mem _ h2⟩

theorem findNode_eq_none {key : K} {m : List (K × LRUItem V)} :
    findNode key m = none ↔ key ∉ keysOf m := by
  induction m with
  | nil => simp [findNode, keysOf]
  | cons q rest ih =>
      obtain ⟨k, v⟩ := q
      by_cases hq : k = key
      · subst hq
        simp [findNode, keysOf]
      · simp [findNode, hq, keysOf] at ih ⊢
        constructor
        · intro hl
          exact ⟨fun he => hq he.symm, ih.mp hl⟩
        · intro hr
          exact ih.mpr hr.2

theorem moveToFront_perm (key : K) (l : List (K × LRUItem V)) :
    (moveToFront key l).Perm l := by
  unfold moveToFront
  cases h : findNode key l with
  | none => exact List.Perm.refl l
  | some p => exact (perm_cons_listRemove_of_findNode h).symm

theorem sumSizes_perm {m m' : List (K × LRUItem V)} (h : m.Perm m') :
    sumSizes m = sumSizes m' :=
  List.Perm.sum_eq (List.Perm.map _ h)

theorem keysOf_perm {m m' : List (K × LRUItem V)} (h : m.Perm m') :
    (keysOf m).Perm (keysOf m') :=
  List.Perm.map _ h

theorem backNode_mem {l : List (K × LRUItem V)} {p : K × LRUItem V}
    (h : backNode l = some p) : p ∈ l := by
  induction l with
  | nil => simp [backNode] at h
  | cons q rest ih =>
      cases rest with
      | nil =>
          simp [backNode] at h
          subst h
          exact List.mem_cons_self _ _
      | cons r rest2 =>
          simp only [backNode] at h
          exact List.mem_cons_of_mem _ (ih h)

theorem backNode_cons_cons (p q : K × LRUItem V) (rest : List (K × LRUItem V)) :
    backNode (p :: q :: rest) = backNode (q :: rest) := rfl

theorem backNode_eq_none {l : List (K × LRUItem V)} :
    backNode l = none ↔ l = [] := by
  induction l with
  | nil => simp [backNode]
  | cons q rest ih =>
      cases rest with
      | nil => simp [backNode]
      | cons r rest2 =>
          rw [backNode_cons_cons]
          simp [ih]

theorem wf_evictElement {c : LRUCache K V} {key : K} {v : LRUItem V}
    (hwf : Wf c) (hm : (key, v) ∈ c.items) : Wf (evictElement key v c) := by
  obtain ⟨hsz, hnd, hperm⟩ := hwf
  have hndo : (keysOf c.orderedItems).Nodup := ((keysOf_perm hperm).nodup_iff).mp hnd
  have hmo : (key, v) ∈ c.orderedItems := (hperm.mem_iff).mp hm
  refine ⟨?_, ?_, ?_⟩
  · show c.currentSize - v.Size = sumSizes (mapDelete key c.items)
    rw [mapDelete, sumSizes_listRemove hnd hm, hsz]
  · exact keysOf_listRemove_nodup hnd
  · show (mapDelete key c.items).Perm (listRemove key c.orderedItems)
    have h1 := perm_cons_listRemove hnd hm
    have h2 := perm_cons_listRemove hndo hmo
    exact List.Perm.cons_inv ((h1.symm.trans hperm).trans h2)

theorem evictElement_maxSize (key : K) (v : LRUItem V) (c : LRUCache K V) :
    (evictElement key v c).maxSize = c.maxSize := rfl

theorem evictElement_evictLog (key : K) (v : LRUItem V) (c : LRUCache K V) :
    (evictElement key v c).evictLog = c.evictLog ++ [(key, v)] := rfl

theorem evictAsNeededGo_maxSize (fuel : Nat) (c : LRUCache K V) :
    (evictAsNeededGo fuel c).maxSize = c.maxSize := by
  induction fuel generalizing c with
  | zero => rfl
  | succ n ih =>
      rw [evictAsNeededGo]
      cases hb : backNode c.orderedItems with
      | none => rfl
      | some back =>
          dsimp only
          by_cases hc : c.maxSize < c.currentSize
          · rw [if_pos hc, ih, evictElement_maxSize]
          · rw [if_neg hc]

theorem evictAsNeededGo_capOk {fuel : Nat} {c : LRUCache K V}
    (hfuel : c.orderedItems.length ≤ fuel) : CapOk (evictAsNeededGo fuel c) := by
  induction fuel generalizing c with
  | zero =>
      right
      rw [evictAsNeededGo]
      exact List.eq_nil_of_length_eq_zero (Nat.le_zero.mp hfuel)
  | succ n ih =>
      rw [evictAsNeededGo]
      cases hb : backNode c.orderedItems with
      | none =>
          right
          exact backNode_eq_none.mp hb
      | some back =>
          dsimp only
          by_cases hc : c.maxSize < c.currentSize
          · rw [if_pos hc]
            apply ih
            have hmemk : back.1 ∈ keysOf c.orderedItems :=
              mem_keysOf_of_mem (backNode_mem hb)
            have hlen := length_listRemove hmemk
            show (listRemove back.1 c.orderedItems).length ≤ n
            omega
          · rw [if_neg hc]
            exact Or.inl (not_lt.mp hc)

theorem evictAsNeededGo_log (fuel : Nat) (c : LRUCache K V) :
    ∃ t, (evictAsNeededGo fuel c).evictLog = c.evictLog ++ t := by
  induction fuel generalizing c with
  | zero => exact ⟨[], by simp [evictAsNeededGo]⟩
  | succ n ih =>
      rw [evictAsNeededGo]
      cases hb : backNode c.orderedItems with
      | none => exact ⟨[], by simp⟩
      | some back =>
          dsimp only
          by_cases hc : c.maxSize < c.currentSize
          · rw [if_pos hc]
            obtain ⟨t, ht⟩ := ih (evictElement back.1 back.2 c)
            refine ⟨back :: t, ?_⟩
            rw [ht, evictElement_evictLog]
            simp
          · rw [if_neg hc]
            exact ⟨[], by simp⟩

theorem wf_evictAsNeededGo {fuel : Nat} {c : LRUCache K V} (hwf : Wf c) :
    Wf (evictAsNeededGo fuel c) := by
  induction fuel generalizing c with
  | zero => exact hwf
  | succ n ih =>
      rw [evictAsNeededGo]
      cases hb : backNode c.orderedItems with
      | none => exact hwf
      | some back =>
          dsimp only
          by_cases hc : c.maxSize < c.currentSize
          · rw [if_pos hc]
            apply ih
            apply wf_evictElement hwf
            exact (hwf.2.2.mem_iff).mpr (backNode_mem hb)
          · rw [if_neg hc]
            exact hwf

theorem evictAsNeeded_capOk (c : LRUCache K V) : CapOk (evictAsNeeded c) :=
  evictAsNeededGo_capOk (Nat.le_refl _)

theorem wf_insert {c : LRUCache K V} {key : K} {v : LRUItem V}
    (hwf : Wf c) (habs : mapLookup key c.items = none) :
    Wf { c with
         currentSize := c.currentSize + v.Size
         orderedItems := (key, v) :: c.orderedItems
         items := mapInsert key v c.items } := by
  obtain ⟨hsz, hnd, hperm⟩ := hwf
  have hk : key ∉ keysOf c.items := mapLookup_eq_none.mp habs
  refine ⟨?_, ?_, ?_⟩
  · show c.currentSize + v.Size = sumSizes (mapInsert key v c.items)
    rw [mapInsert, listRemove_of_not_mem hk]
    simp only [sumSizes, List.map_cons, List.sum_cons]
    rw [hsz]
    show sumSizes c.items + v.Size = v.Size + sumSizes c.items
    ring
  · show (keysOf (mapInsert key v c.items)).Nodup
    rw [mapInsert, listRemove_of_not_mem hk, keysOf_cons]
    exact List.nodup_cons.mpr ⟨hk, hnd⟩
  · show (mapInsert key v c.items).Perm ((key, v) :: c.orderedItems)
    rw [mapInsert, listRemove_of_not_mem hk]
    exact hperm.cons _

theorem wf_putItem {c : LRUCache K V} {key : K} {v : LRUItem V}
    (hwf : Wf c) (habs : mapLookup key c.items = none) : Wf (putItem key v c) :=
  wf_evictAsNeededGo (wf_insert hwf habs)

theorem putItem_maxSize (key : K) (v : LRUItem V) (c : LRUCache K V) :
    (putItem key v c).maxSize = c.maxSize := by
  rw [putItem, evictAsNeeded, evictAsNeededGo_maxSize]

theorem putItem_capOk (key : K) (v : LRUItem V) (c : LRUCache K V) :
    CapOk (putItem key v c) :=
  evictAsNeeded_capOk _

theorem putItem_log (key : K) (v : LRUItem V) (c : LRUCache K V) :
    ∃ t, (putItem key v c).evictLog = c.evictLog ++ t :=
  evictAsNeededGo_log _ _

theorem wf_evictIfLoop {pred : K → Bool} {snap : List (K × LRUItem V)}
    {c : LRUCache K V} (hwf : Wf c) (hnds : (keysOf snap).Nodup)
    (hsub : ∀ p ∈ snap, p ∈ c.items) : Wf (evictIfLoop pred snap c) := by
  induction snap generalizing c with
  | nil => exact hwf
  | cons p rest ih =>
      obtain ⟨k, v⟩ := p
      rw [keysOf_cons, List.nodup_cons] at hnds
      rw [evictIfLoop]
      by_cases hp : pred k
      · rw [if_pos hp]
        apply ih (wf_evictElement hwf (hsub (k, v) (List.mem_cons_self _ _))) hnds.2
        intro q hq
        have hqm : q ∈ c.items := hsub q (List.mem_cons_of_mem _ hq)
        have hqk : q.1 ≠ k := by
          intro he
          apply hnds.1
          rw [← he]
          exact mem_keysOf_of_mem hq
        exact mem_listRemove_of_ne hqm hqk
      · rw [if_neg hp]
        exact ih hwf hnds.2 (fun q hq => hsub q (List.mem_cons_of_mem _ hq))

theorem evictIfLoop_size (pred : K → Bool) (snap : List (K × LRUItem V))
    {c : LRUCache K V} (hnn : ∀ p ∈ snap, 0 ≤ p.2.Size) :
    (evictIfLoop pred snap c).currentSize ≤ c.currentSize ∧
      (evictIfLoop pred snap c).maxSize = c.maxSize := by
  induction snap generalizing c with
  | nil => exact ⟨le_refl _, rfl⟩
  | cons p rest ih =>
      rw [evictIfLoop]
      by_cases hp : pred p.1
      · rw [if_pos hp]
        obtain ⟨h1, h2⟩ := ih (c := evictElement p.1 p.2 c)
          (fun q hq => hnn q (List.mem_cons_of_mem _ hq))
        refine ⟨le_trans h1 ?_, by rw [h2, evictElement_maxSize]⟩
        show c.currentSize - p.2.Size ≤ c.currentSize
        have := hnn p (List.mem_cons_self _ _)
        omega
      · rw [if_neg hp]
        exact ih (fun q hq => hnn q (List.mem_cons_of_mem _ hq))

theorem wf_applyOp {producer : Option (K → Option (LRUItem V))}
    {c : LRUCache K V} (hwf : Wf c) (op : Op K V) :
    Wf (applyOp producer c op) := by
  cases op with
  | put key element =>
      show Wf (Put key element c).1
      unfold Put
      cases h : mapLookup key c.items with
      | some v => exact hwf
      | none =>
          dsimp only
          exact wf_putItem hwf h
  | get key =>
      show Wf (Get producer key c).1
      unfold Get
      cases h : mapLookup key c.items with
      | some v =>
          exact ⟨hwf.1, hwf.2.1,
            hwf.2.2.trans (moveToFront_perm key c.orderedItems).symm⟩
      | none =>
          dsimp only
          unfold produceItem
          cases producer with
          | none => exact hwf
          | some prod =>
              dsimp only
              cases hp : prod key with
              | none => exact hwf
              | some element =>
                  dsimp only
                  exact wf_putItem hwf h
  | replace key element =>
      show Wf (Replace key element c).1
      unfold Replace
      cases h : mapLookup key c.items with
      | some old =>
          dsimp only
          have hwf1 := wf_evictElement hwf (mapLookup_mem h)
          apply wf_putItem hwf1
          apply mapLookup_eq_none.mpr
          exact not_mem_keysOf_listRemove hwf.2.1
      | none =>
          dsimp only
          exact wf_putItem hwf h
  | evict key =>
      show Wf (Evict key c).1
      unfold Evict
      cases h : mapLookup key c.items with
      | some v =>
          dsimp only
          exact wf_evictElement hwf (mapLookup_mem h)
      | none => exact hwf
  | evictIf pred =>
      show Wf (EvictIf pred c).1
      unfold EvictIf
      exact wf_evictIfLoop hwf hwf.2.1 (fun p hp => hp)
  | makeRoom amount =>
      show Wf (MakeRoom amount c)
      unfold MakeRoom
      have h1 : Wf { c with maxSize := c.maxSize - amount } :=
        ⟨hwf.1, hwf.2.1, hwf.2.2⟩
      have h2 : Wf (evictAsNeeded { c with maxSize := c.maxSize - amount }) :=
        wf_evictAsNeededGo h1
      exact ⟨h2.1, h2.2.1, h2.2.2⟩

theorem wf_run {producer : Option (K → Option (LRUItem V))} {c : LRUCache K V}
    (hwf : Wf c) (ops : List (Op K V)) : Wf (run producer c ops) := by
  induction ops generalizing c with
  | nil => exact hwf
  | cons op rest ih => exact ih (wf_applyOp hwf op)

theorem sumSizes_nonneg {m : List (K × LRUItem V)}
    (h : ∀ p ∈ m, 0 ≤ p.2.Size) : 0 ≤ sumSizes m := by
  induction m with
  | nil => simp [sumSizes]
  | cons p rest ih =>
      have h1 := h p (List.mem_cons_self _ _)
      have h2 := ih (fun q hq => h q (List.mem_cons_of_mem _ hq))
      simp only [sumSizes, List.map_cons, List.sum_cons] at h2 ⊢
      omega

theorem evictAsNeededGo_of_empty {fuel : Nat} {c : LRUCache K V}
    (h : c.orderedItems = []) : evictAsNeededGo fuel c = c := by
  cases fuel with
  | zero => rfl
  | succ n =>
      rw [evictAsNeededGo]
      rw [show backNode c.orderedItems = none from by rw [h]; rfl]

theorem evictAsNeededGo_front {fuel : Nat} {c : LRUCache K V} {key : K}
    {v : LRUItem V} {rest : List (K × LRUItem V)} (hwf : Wf c)
    (hord : c.orderedItems = (key, v) :: rest) (hfit : v.Size ≤ c.maxSize) :
    ∃ rest2, (evictAsNeededGo fuel c).orderedItems = (key, v) :: rest2 := by
  induction fuel generalizing c rest with
  | zero => exact ⟨rest, by rw [evictAsNeededGo, hord]⟩
  | succ n ih =>
      have hndo : (keysOf c.orderedItems).Nodup :=
        ((keysOf_perm hwf.2.2).nodup_iff).mp hwf.2.1
      rw [evictAsNeededGo]
      cases hb : backNode c.orderedItems with
      | none =>
          rw [backNode_eq_none] at hb
          rw [hb] at hord
          exact List.noConfusion hord
      | some back =>
          dsimp only
          by_cases hc : c.maxSize < c.currentSize
          · rw [if_pos hc]
            cases rest with
            | nil =>
                exfalso
                have h1 := hwf.1.trans (sumSizes_perm hwf.2.2)
                rw [hord] at h1
                have hcur : c.currentSize = v.Size := by
                  simpa [sumSizes] using h1
                omega
            | cons r rs =>
                have hbmem : back ∈ c.orderedItems := backNode_mem hb
                have hback_rest : back ∈ r :: rs := by
                  rw [hord, backNode_cons_cons] at hb
                  exact backNode_mem hb
                have hkne : back.1 ≠ key := by
                  intro he
                  rw [hord, keysOf_cons, List.nodup_cons] at hndo
                  apply hndo.1
                  rw [← he]
                  exact mem_keysOf_of_mem hback_rest
                apply ih (wf_evictElement hwf ((hwf.2.2.mem_iff).mpr hbmem))
                · show listRemove back.1 c.orderedItems =
                    (key, v) :: listRemove back.1 (r :: rs)
                  rw [hord, listRemove, if_neg (fun he => hkne he.symm)]
                · exact hfit
          · rw [if_neg hc]
            exact ⟨rest, hord⟩

theorem putItem_lookup {c : LRUCache K V} {key : K} {v : LRUItem V}
    (hwf : Wf c) (habs : mapLookup key c.items = none)
    (hfit : v.Size ≤ c.maxSize) :
    mapLookup key (putItem key v c).items = some v := by
  have hwf1 := wf_insert (v := v) hwf habs
  have hwf2 : Wf (putItem key v c) := wf_putItem hwf habs
  obtain ⟨rest2, hr⟩ : ∃ rest2,
      (putItem key v c).orderedItems = (key, v) :: rest2 :=
    evictAsNeededGo_front hwf1 rfl hfit
  have hmem : (key, v) ∈ (putItem key v c).items := by
    rw [hwf2.2.2.mem_iff]
    show (key, v) ∈ (putItem key v c).orderedItems
    have : (putItem key v c).orderedItems = (key, v) :: rest2 := hr
    rw [this]
    exact List.mem_cons_self _ _
  exact mapLookup_of_mem_nodup hwf2.2.1 hmem

theorem evictAsNeededGo_drain {fuel : Nat} {c : LRUCache K V} {key : K}
    {v : LRUItem V} {rest : List (K × LRUItem V)} (hwf : Wf c)
    (hnn : ∀ p ∈ c.items, 0 ≤ p.2.Size)
    (hord : c.orderedItems = (key, v) :: rest) (hbig : c.maxSize < v.Size)
    (hfuel : rest.length < fuel) :
    (evictAsNeededGo fuel c).orderedItems = [] ∧
      (evictAsNeededGo fuel c).items = [] ∧
      (evictAsNeededGo fuel c).currentSize = 0 ∧
      ∃ t, (evictAsNeededGo fuel c).evictLog = c.evictLog ++ t ++ [(key, v)] := by
  induction fuel generalizing c rest with
  | zero => omega
  | succ n ih =>
      have hndo : (keysOf c.orderedItems).Nodup :=
        ((keysOf_perm hwf.2.2).nodup_iff).mp hwf.2.1
      have hsumrest : 0 ≤ sumSizes rest := by
        apply sumSizes_nonneg
        intro p hp
        apply hnn
        rw [hwf.2.2.mem_iff, hord]
        exact List.mem_cons_of_mem _ hp
      have hcur : c.currentSize = v.Size + sumSizes rest := by
        have h1 := hwf.1.trans (sumSizes_perm hwf.2.2)
        rw [hord] at h1
        simpa [sumSizes] using h1
      have hc : c.maxSize < c.currentSize := by omega
      rw [evictAsNeededGo]
      cases hb : backNode c.orderedItems with
      | none =>
          rw [backNode_eq_none] at hb
          rw [hb] at hord
          exact List.noConfusion hord
      | some back =>
          dsimp only
          rw [if_pos hc]
          cases rest with
          | nil =>
              have hback : back = (key, v) := by
                rw [hord] at hb
                injection hb.symm with hinj
              subst hback
              have hee : (evictElement key v c).orderedItems = [] := by
                show listRemove key c.orderedItems = []
                rw [hord, listRemove, if_pos rfl]
              rw [evictAsNeededGo_of_empty hee]
              refine ⟨hee, ?_, ?_, ⟨[], by rw [evictElement_evictLog]; simp⟩⟩
              · show mapDelete key c.items = []
                have hing : c.items = [(key, v)] := by
                  have := hwf.2.2
                  rw [hord] at this
                  exact List.perm_singleton.mp this
                rw [mapDelete, hing, listRemove, if_pos rfl]
              · show c.currentSize - v.Size = 0
                simp [sumSizes] at hcur
                omega
          | cons r rs =>
              have hbmem : back ∈ c.orderedItems := backNode_mem hb
              have hback_rest : back ∈ r :: rs := by
                rw [hord, backNode_cons_cons] at hb
                exact backNode_mem hb
              have hkne : back.1 ≠ key := by
                intro he
                rw [hord, keysOf_cons, List.nodup_cons] at hndo
                apply hndo.1
                rw [← he]
                exact mem_keysOf_of_mem hback_rest
              have hwf1 := wf_evictElement hwf ((hwf.2.2.mem_iff).mpr hbmem)
              have hord1 : (evictElement back.1 back.2 c).orderedItems =
                  (key, v) :: listRemove back.1 (r :: rs) := by
                show listRemove back.1 c.orderedItems =
                  (key, v) :: listRemove back.1 (r :: rs)
                rw [hord, listRemove, if_neg (fun he => hkne he.symm)]
              have hnn1 : ∀ p ∈ (evictElement back.1 back.2 c).items, 0 ≤ p.2.Size := by
                intro p hp
                apply hnn
                exact List.Sublist.mem hp (listRemove_sublist back.1 c.items)
              have hlen : (listRemove back.1 (r :: rs)).length < n := by
                have hmk : back.1 ∈ keysOf (r :: rs) := mem_keysOf_of_mem hback_rest
                have := length_listRemove hmk
                simp only [List.length_cons] at this hfuel ⊢
                omega
              obtain ⟨h1, h2, h3, t, ht⟩ := ih hwf1 hnn1 hord1 hbig hlen
              refine ⟨h1, h2, h3, ⟨back :: t, ?_⟩⟩
              rw [ht, evictElement_evictLog]
              simp

theorem evictIfLoop_spec (pred : K → Bool) (snap : List (K × LRUItem V))
    {c : LRUCache K V} (hnd : (keysOf c.items).Nodup) :
    (evictIfLoop pred snap c).items =
      c.items.filter (fun p => !(pred p.1 && decide (p.1 ∈ keysOf snap))) ∧
    (evictIfLoop pred snap c).evictLog =
      c.evictLog ++ snap.filter (fun p => pred p.1) := by
  induction snap generalizing c with
  | nil =>
      refine ⟨?_, by simp [evictIfLoop]⟩
      show c.items = _
      symm
      rw [List.filter_eq_self]
      intro a ha
      simp [keysOf]
  | cons p rest ih =>
      obtain ⟨k, v⟩ := p
      rw [evictIfLoop]
      dsimp only
      by_cases hp : pred k
      · rw [if_pos hp]
        have hnd1 : (keysOf (evictElement k v c).items).Nodup :=
          keysOf_listRemove_nodup hnd
        obtain ⟨hitems, hlog⟩ := ih (c := evictElement k v c) hnd1
        constructor
        · rw [hitems]
          show (mapDelete k c.items).filter _ = _
          rw [mapDelete, listRemove_eq_filter hnd, List.filter_filter]
          apply List.filter_congr
          intro q hq
          by_cases hqk : q.1 = k
          · simp [hqk, hp, keysOf_cons]
          · simp [hqk, keysOf_cons]
        · rw [hlog]
          show (c.evictLog ++ [(k, v)]) ++ _ = _
          rw [List.filter_cons_of_pos (by simpa using hp)]
          simp
      · rw [if_neg hp]
        obtain ⟨hitems, hlog⟩ := ih (c := c) hnd
        constructor
        · rw [hitems]
          apply List.filter_congr
          intro q hq
          by_cases hqk : q.1 = k
          · simp [hqk, hp, keysOf_cons]
          · simp [hqk, keysOf_cons]
        · rw [hlog, List.filter_cons_of_neg (by simpa using hp)]

theorem capOk_applyOp {producer : Option (K → Option (LRUItem V))}
    {c : LRUCache K V} (hwf : Wf c) (hnn : NonNegSizes c) (hcap : CapOk c)
    (op : Op K V) (hop : opSideOk op) : CapOk (applyOp producer c op) := by
  cases op with
  | put key element =>
      show CapOk (Put key element c).1
      unfold Put
      cases h : mapLookup key c.items with
      | some v => exact hcap
      | none =>
          dsimp only
          exact putItem_capOk key element c
  | get key =>
      show CapOk (Get producer key c).1
      unfold Get
      cases h : mapLookup key c.items with
      | some v =>
          rcases hcap with hle | hemp
          · exact Or.inl hle
          · right
            show moveToFront key c.orderedItems = []
            rw [hemp]
            rfl
      | none =>
          dsimp only
          unfold produceItem
          cases producer with
          | none => exact hcap
          | some prod =>
              dsimp only
              cases hprod : prod key with
              | none => exact hcap
              | some element =>
                  dsimp only
                  exact putItem_capOk key element c
  | replace key element =>
      show CapOk (Replace key element c).1
      unfold Replace
      cases h : mapLookup key c.items with
      | some old =>
          dsimp only
          exact putItem_capOk key element _
      | none =>
          dsimp only
          exact putItem_capOk key element c
  | evict key =>
      show CapOk (Evict key c).1
      unfold Evict
      cases h : mapLookup key c.items with
      | some v =>
          dsimp only
          rcases hcap with hle | hemp
          · left
            show c.currentSize - v.Size ≤ c.maxSize
            have hsz := hnn (key, v) (mapLookup_mem h)
            simp only at hsz
            omega
          · exfalso
            have : c.items = [] := List.Perm.eq_nil (hemp ▸ hwf.2.2)
            rw [this] at h
            exact Option.noConfusion h
      | none => exact hcap
  | evictIf pred =>
      show CapOk (EvictIf pred c).1
      unfold EvictIf
      dsimp only
      rcases hcap with hle | hemp
      · left
        obtain ⟨h1, h2⟩ := evictIfLoop_size pred c.items hnn
        rw [h2]
        exact le_trans h1 hle
      · right
        have hitems : c.items = [] := List.Perm.eq_nil (hemp ▸ hwf.2.2)
        rw [hitems]
        show c.orderedItems = []
        exact hemp
  | makeRoom amount =>
      show CapOk (MakeRoom amount c)
      unfold MakeRoom
      have hamt : 0 ≤ amount := hop
      have hpost := evictAsNeeded_capOk { c with maxSize := c.maxSize - amount }
      have hmax : (evictAsNeeded { c with maxSize := c.maxSize - amount }).maxSize =
          c.maxSize - amount := evictAsNeededGo_maxSize _ _
      rcases hpost with hle | hemp
      · left
        show (evictAsNeeded _).currentSize ≤ (evictAsNeeded _).maxSize + amount
        omega
      · exact Or.inr hemp

theorem wf_new {m : Int} {c : LRUCache K V} (h : New m = some c) : Wf c := by
  rw [New] at h
  by_cases hm : m ≤ 0
  · rw [if_pos hm] at h
    exact Option.noConfusion h
  · rw [if_neg hm] at h
    injection h with h2
    rw [← h2]
    exact ⟨rfl, List.nodup_nil, List.Perm.refl _⟩

/-- C1: Size-accounting invariant: after every sequence of public operations
(Put, Get, Replace, Evict, EvictIf, MakeRoom) starting from a freshly
constructed cache, `currentSize` equals the sum of the `Size` fields of the
items currently present in the item index. -/
theorem c1_size_invariant {K V : Type} [DecidableEq K]
    (producer : Option (K → Option (LRUItem V))) (m : Int) (c0 : LRUCache K V)
    (ops : List (Op K V)) (hnew : New m = some c0) :
    (run producer c0 ops).currentSize = sumSizes ((run producer c0 ops).items) :=
  (wf_run (wf_new hnew) ops).1

/-- Witness for C1: a concrete run from `New 128`. -/
theorem c1_size_invariant_witness :
    (run none (fresh 128)
      [Op.put "a" ⟨"x", 50⟩, Op.get "a", Op.put "b" ⟨"y", 100⟩]).currentSize =
    sumSizes ((run none (fresh 128)
      [Op.put "a" ⟨"x", 50⟩, Op.get "a", Op.put "b" ⟨"y", 100⟩]).items) :=
  c1_size_invariant none 128 (fresh 128)
    [Op.put "a" ⟨"x", 50⟩, Op.get "a", Op.put "b" ⟨"y", 100⟩] rfl

/-- C3: Capacity-bound postcondition: every public mutating operation applied
to a well-formed state with non-negative item sizes that already satisfies the
capacity invariant yields a state with `currentSize ≤ maxSize`, or one whose
recency list has been drained to empty (`MakeRoom` restricted to non-negative
amounts). -/
theorem c3_capacity_bound {K V : Type} [DecidableEq K]
    (producer : Option (K → Option (LRUItem V))) (c : LRUCache K V)
    (op : Op K V) (hwf : Wf c) (hnn : NonNegSizes c) (hcap : CapOk c)
    (hop : opSideOk op) : CapOk (applyOp producer c op) :=
  capOk_applyOp hwf hnn hcap op hop

/-- Witness for C3: evicting the only item of a concrete cache keeps the
capacity bound. -/
theorem c3_capacity_bound_witness :
    CapOk (applyOp none ((Put "a" ⟨"x", 50⟩ (fresh 128)).1) (Op.evict "a")) :=
  c3_capacity_bound none ((Put "a" ⟨"x", 50⟩ (fresh 128)).1) (Op.evict "a")
    (by decide) (by decide) (by decide) trivial

/-- The C2 scenario after the first two inserts: capacity 128, `test1` and
`test2` put with size 50 each. -/
def c2Mid : LRUCache String String :=
  (Put "test2" ⟨"test2", 50⟩ ((Put "test1" ⟨"test1", 50⟩ (fresh 128)).1)).1

/-- The full C2 scenario: additionally `Get test1` then `Put test3` (size 50),
which forces one capacity eviction. -/
def c2Scenario : LRUCache String String :=
  (Put "test3" ⟨"test3", 50⟩ ((Get none "test1" c2Mid).1)).1

/-- C2: LRU order with promotion: `Get` on a present key moves that key to the
front (most-recently-used end) of the recency list; capacity eviction removes
the back (least-recently-used end) first; and in the concrete scenario
(capacity 128, insert `test1`, `test2`, `Get test1`, insert `test3`) the key
`test2` is evicted while `test1` and `test3` survive. -/
theorem c2_lru_promotion {K V : Type} [DecidableEq K]
    (producer : Option (K → Option (LRUItem V))) (c : LRUCache K V) (key : K)
    (v : LRUItem V) (hwf : Wf c) (hhit : mapLookup key c.items = some v) :
    ((Get producer key c).1.orderedItems.head? = some (key, v)) ∧
    (∀ b : K × LRUItem V, c.maxSize < c.currentSize →
      backNode c.orderedItems = some b →
      ∃ t, (evictAsNeeded c).evictLog = c.evictLog ++ b :: t) ∧
    (Has "test1" c2Scenario = true ∧ Has "test2" c2Scenario = false ∧
      Has "test3" c2Scenario = true) := by
  refine ⟨?_, ?_, by decide⟩
  · unfold Get
    rw [hhit]
    dsimp only
    show (moveToFront key c.orderedItems).head? = some (key, v)
    have hmem : (key, v) ∈ c.orderedItems :=
      (hwf.2.2.mem_iff).mp (mapLookup_mem hhit)
    have hndo : (keysOf c.orderedItems).Nodup :=
      ((keysOf_perm hwf.2.2).nodup_iff).mp hwf.2.1
    rw [moveToFront, findNode_of_mem_nodup hndo hmem]
    rfl
  · intro b hc hb
    cases hl : c.orderedItems with
    | nil =>
        rw [hl] at hb
        simp [backNode] at hb
    | cons p rest =>
        obtain ⟨t, ht⟩ := evictAsNeededGo_log rest.length (evictElement b.1 b.2 c)
        refine ⟨t, ?_⟩
        rw [evictAsNeeded,
          show c.orderedItems.length = rest.length + 1 from by rw [hl]; rfl,
          evictAsNeededGo, hb]
        dsimp only
        rw [if_pos hc, ht, evictElement_evictLog]
        simp

/-- Witness for C2: in the concrete scenario, `Get test1` puts `test1` at the
front of the recency list, and `test2` is the key evicted by the third
insert. -/
theorem c2_lru_promotion_witness :
    ((Get none "test1" c2Mid).1.orderedItems.head? =
      some ("test1", ⟨"test1", 50⟩)) ∧
    (Has "test1" c2Scenario = true ∧ Has "test2" c2Scenario = false ∧
      Has "test3" c2Scenario = true) :=
  ⟨(c2_lru_promotion none c2Mid "test1" ⟨"test1", 50⟩ (by decide) (by decide)).1,
   (c2_lru_promotion none c2Mid "test1" ⟨"test1", 50⟩ (by decide) (by decide)).2.2⟩

/-- C4 counterexample: the claim asserts that after inserting an oversized
item `currentSize` returns to its prior value.  With capacity 128, one
resident item of size 50 and an oversized insert of size 200, the prior value
is 50 but the eviction pass drains the whole cache, leaving `currentSize` 0. -/
theorem c4_oversized_counterexample :
    ¬((Put "big" ⟨"b", 200⟩ ((Put "a" ⟨"a", 50⟩ (fresh 128)).1)).1.currentSize =
      ((Put "a" ⟨"a", 50⟩ (fresh 128)).1).currentSize) := by
  decide

/-- C4 (amended): inserting an item whose size strictly exceeds `maxSize`
under a key that is absent succeeds and drains the cache completely: every
resident item and the new item are evicted (the eviction hook fires for the
new item last), the key is absent afterwards, and `currentSize` becomes 0 —
which equals its prior value only when the cache was already empty.  A
producer-backed `Get` that materializes the same item reaches the same
state. -/
theorem c4_oversized_amended {K V : Type} [DecidableEq K] (c : LRUCache K V)
    (key : K) (v : LRUItem V) (hwf : Wf c) (hnn : NonNegSizes c)
    (hmax : 0 < c.maxSize) (habs : mapLookup key c.items = none)
    (hbig : c.maxSize < v.Size) :
    (Put key v c).2 = none ∧
    (Put key v c).1.orderedItems = [] ∧
    (Put key v c).1.items = [] ∧
    (Put key v c).1.currentSize = 0 ∧
    (Put key v c).1.evictLog.getLast? = some (key, v) ∧
    Has key (Put key v c).1 = false ∧
    (∀ prod : K → Option (LRUItem V), prod key = some v →
      (Get (some prod) key c).1 = (Put key v c).1) := by
  have hput : Put key v c = (putItem key v c, none) := by
    unfold Put
    rw [habs]
  rw [hput]
  dsimp only
  have hwf1 := wf_insert (v := v) hwf habs
  have hk : key ∉ keysOf c.items := mapLookup_eq_none.mp habs
  have hnn1 : ∀ p ∈ (mapInsert key v c.items), 0 ≤ p.2.Size := by
    intro p hp
    rw [mapInsert, listRemove_of_not_mem hk] at hp
    rcases List.mem_cons.mp hp with he | hm
    · rw [he]
      show 0 ≤ v.Size
      omega
    · exact hnn p hm
  obtain ⟨h1, h2, h3, t, ht⟩ :=
    evictAsNeededGo_drain hwf1 hnn1 rfl
      (show c.maxSize < v.Size from hbig) (Nat.lt_succ_self _)
  refine ⟨rfl, h1, h2, h3, ?_, ?_, ?_⟩
  · show (putItem key v c).evictLog.getLast? = some (key, v)
    have ht2 : (putItem key v c).evictLog = (c.evictLog ++ t) ++ [(key, v)] := ht
    rw [ht2, List.getLast?_concat]
  · show (mapLookup key (putItem key v c).items).isSome = false
    have h2b : (putItem key v c).items = [] := h2
    rw [h2b]
    rfl
  · intro prod hp
    unfold Get produceItem
    rw [habs]
    dsimp only
    rw [hp]

/-- Witness for C4 (amended): capacity 128, one resident item of size 50, then
an oversized insert of size 200 empties the cache. -/
theorem c4_oversized_amended_witness :
    (Put "big" ⟨"b", 200⟩ ((Put "a" ⟨"a", 50⟩ (fresh 128)).1)).2 = none ∧
    (Put "big" ⟨"b", 200⟩ ((Put "a" ⟨"a", 50⟩ (fresh 128)).1)).1.orderedItems = [] ∧
    (Put "big" ⟨"b", 200⟩ ((Put "a" ⟨"a", 50⟩ (fresh 128)).1)).1.items = [] ∧
    (Put "big" ⟨"b", 200⟩ ((Put "a" ⟨"a", 50⟩ (fresh 128)).1)).1.currentSize = 0 ∧
    (Put "big" ⟨"b", 200⟩ ((Put "a" ⟨"a", 50⟩ (fresh 128)).1)).1.evictLog.getLast? =
      some ("big", ⟨"b", 200⟩) ∧
    Has "big" (Put "big" ⟨"b", 200⟩ ((Put "a" ⟨"a", 50⟩ (fresh 128)).1)).1 = false ∧
    (∀ prod : String → Option (LRUItem String), prod "big" = some ⟨"b", 200⟩ →
      (Get (some prod) "big" ((Put "a" ⟨"a", 50⟩ (fresh 128)).1)).1 =
        (Put "big" ⟨"b", 200⟩ ((Put "a" ⟨"a", 50⟩ (fresh 128)).1)).1) :=
  c4_oversized_amended ((Put "a" ⟨"a", 50⟩ (fresh 128)).1) "big" ⟨"b", 200⟩
    (by decide) (by decide) (by decide) (by decide) (by decide)

/-- C6: `Replace` is an upsert: it never errors, the key maps to the new item
afterwards (provided the new item itself fits within the capacity), the
eviction hook fires for a previously present entry, and on an absent key it
behaves exactly like a successful `Put`. -/
theorem c6_replace_upsert {K V : Type} [DecidableEq K] (c : LRUCache K V)
    (key : K) (v : LRUItem V) (hwf : Wf c) (hfit : v.Size ≤ c.maxSize) :
    (Replace key v c).2 = none ∧
    mapLookup key (Replace key v c).1.items = some v ∧
    (∀ old, mapLookup key c.items = some old →
      (key, old) ∈ (Replace key v c).1.evictLog) ∧
    (mapLookup key c.items = none → Replace key v c = Put key v c) := by
  unfold Replace
  cases h : mapLookup key c.items with
  | some old =>
      dsimp only
      have hwf1 := wf_evictElement hwf (mapLookup_mem h)
      have habs1 : mapLookup key (evictElement key old c).items = none := by
        apply mapLookup_eq_none.mpr
        exact not_mem_keysOf_listRemove hwf.2.1
      refine ⟨rfl, ?_, ?_, ?_⟩
      · apply putItem_lookup hwf1 habs1
        show v.Size ≤ c.maxSize
        exact hfit
      · intro old2 h2
        injection h2 with h2
        subst h2
        obtain ⟨t, ht⟩ := putItem_log key v (evictElement key old c)
        rw [ht, evictElement_evictLog]
        simp
      · intro hnone
        exact Option.noConfusion hnone
  | none =>
      dsimp only
      refine ⟨rfl, putItem_lookup hwf h hfit, ?_, ?_⟩
      · intro old2 h2
        exact Option.noConfusion h2
      · intro
        unfold Put
        rw [h]

/-- Witness for C6: replacing the stored value under `test1` in a concrete
cache succeeds and the key maps to the new item. -/
theorem c6_replace_upsert_witness :
    (Replace "test1" ⟨"test2", 50⟩ ((Put "test1" ⟨"test1", 50⟩ (fresh 100)).1)).2 = none ∧
    mapLookup "test1"
      (Replace "test1" ⟨"test2", 50⟩ ((Put "test1" ⟨"test1", 50⟩ (fresh 100)).1)).1.items =
      some ⟨"test2", 50⟩ :=
  ⟨(c6_replace_upsert ((Put "test1" ⟨"test1", 50⟩ (fresh 100)).1) "test1"
      ⟨"test2", 50⟩ (by decide) (by decide)).1,
   (c6_replace_upsert ((Put "test1" ⟨"test1", 50⟩ (fresh 100)).1) "test1"
      ⟨"test2", 50⟩ (by decide) (by decide)).2.1⟩

/-- The C7 scenario base state: capacity 160, `test1` and `test2` put with
size 50 each. -/
def c7Base : LRUCache String String :=
  (Put "test2" ⟨"test2", 50⟩ ((Put "test1" ⟨"test1", 50⟩ (fresh 160)).1)).1

/-- The full C7 scenario: `MakeRoom 100` on the base state. -/
def c7Scenario : LRUCache String String := MakeRoom 100 c7Base

/-- C7: `MakeRoom amount` (for `0 ≤ amount ≤ maxSize` on a well-formed state)
guarantees `EmptySpace ≥ amount` and leaves the configured capacity unchanged;
in the concrete scenario (capacity 160, `test1`, `test2` of size 50 each,
`MakeRoom 100`) exactly the least-recently-used `test1` is evicted and
`EmptySpace` becomes 110. -/
theorem c7_makeRoom {K V : Type} [DecidableEq K] (c : LRUCache K V)
    (amount : Int) (hwf : Wf c) (h0 : 0 ≤ amount) (hle : amount ≤ c.maxSize) :
    amount ≤ EmptySpace (MakeRoom amount c) ∧
    MaxSize (MakeRoom amount c) = MaxSize c ∧
    (c7Scenario.evictLog = [("test1", ⟨"test1", 50⟩)] ∧
      EmptySpace c7Scenario = 110) := by
  refine ⟨?_, ?_, by decide⟩
  · unfold MakeRoom EmptySpace
    dsimp only
    have hpost := evictAsNeeded_capOk { c with maxSize := c.maxSize - amount }
    have hmax : (evictAsNeeded { c with maxSize := c.maxSize - amount }).maxSize =
        c.maxSize - amount := evictAsNeededGo_maxSize _ _
    rcases hpost with hle2 | hemp
    · omega
    · have hwf1 : Wf { c with maxSize := c.maxSize - amount } :=
        ⟨hwf.1, hwf.2.1, hwf.2.2⟩
      have hwf2 : Wf (evictAsNeeded { c with maxSize := c.maxSize - amount }) :=
        wf_evictAsNeededGo hwf1
      have hitems : (evictAsNeeded { c with maxSize := c.maxSize - amount }).items = [] :=
        List.Perm.eq_nil (hemp ▸ hwf2.2.2)
      have hcur : (evictAsNeeded { c with maxSize := c.maxSize - amount }).currentSize = 0 := by
        rw [hwf2.1, hitems]
        rfl
      omega
  · unfold MakeRoom MaxSize
    dsimp only
    have hmax : (evictAsNeeded { c with maxSize := c.maxSize - amount }).maxSize =
        c.maxSize - amount := evictAsNeededGo_maxSize _ _
    omega

/-- Witness for C7: `MakeRoom 100` on the concrete base state. -/
theorem c7_makeRoom_witness :
    (100 : Int) ≤ EmptySpace (MakeRoom 100 c7Base) ∧
    MaxSize (MakeRoom 100 c7Base) = MaxSize c7Base :=
  ⟨(c7_makeRoom c7Base 100 (by decide) (by decide) (by decide)).1,
   (c7_makeRoom c7Base 100 (by decide) (by decide) (by decide)).2.1⟩

/-- C8: `EvictIf` removes exactly the present entries whose key satisfies the
predicate, fires the eviction hook for exactly those entries, and always
returns no information about them. -/
theorem c8_evictIf_exact {K V : Type} [DecidableEq K] (c : LRUCache K V)
    (pred : K → Bool) (hwf : Wf c) :
    (EvictIf pred c).2 = none ∧
    (EvictIf pred c).1.items = c.items.filter (fun p => !pred p.1) ∧
    (EvictIf pred c).1.evictLog =
      c.evictLog ++ c.items.filter (fun p => pred p.1) := by
  obtain ⟨hitems, hlog⟩ := evictIfLoop_spec pred c.items hwf.2.1
  refine ⟨rfl, ?_, hlog⟩
  rw [show (EvictIf pred c).1 = evictIfLoop pred c.items c from rfl, hitems]
  apply List.filter_congr
  intro q hq
  have hqm : q.1 ∈ keysOf c.items := mem_keysOf_of_mem hq
  simp [hqm]

/-- Witness for C8: evicting exactly `test2` from a concrete three-item
cache. -/
theorem c8_evictIf_exact_witness :
    (EvictIf (fun k => k == "test2")
      ((Put "test3" ⟨"t", 10⟩ ((Put "test2" ⟨"t", 10⟩
        ((Put "test1" ⟨"t", 10⟩ (fresh 100)).1)).1)).1)).2 = none ∧
    (EvictIf (fun k => k == "test2")
      ((Put "test3" ⟨"t", 10⟩ ((Put "test2" ⟨"t", 10⟩
        ((Put "test1" ⟨"t", 10⟩ (fresh 100)).1)).1)).1)).1.items =
      ((Put "test3" ⟨"t", 10⟩ ((Put "test2" ⟨"t", 10⟩
        ((Put "test1" ⟨"t", 10⟩ (fresh 100)).1)).1)).1).items.filter
        (fun p => !(fun k => k == "test2") p.1) ∧
    (EvictIf (fun k => k == "test2")
      ((Put "test3" ⟨"t", 10⟩ ((Put "test2" ⟨"t", 10⟩
        ((Put "test1" ⟨"t", 10⟩ (fresh 100)).1)).1)).1)).1.evictLog =
      ((Put "test3" ⟨"t", 10⟩ ((Put "test2" ⟨"t", 10⟩
        ((Put "test1" ⟨"t", 10⟩ (fresh 100)).1)).1)).1).evictLog ++
      ((Put "test3" ⟨"t", 10⟩ ((Put "test2" ⟨"t", 10⟩
        ((Put "test1" ⟨"t", 10⟩ (fresh 100)).1)).1)).1).items.filter
        (fun p => (fun k => k == "test2") p.1) :=
  c8_evictIf_exact
    ((Put "test3" ⟨"t", 10⟩ ((Put "test2" ⟨"t", 10⟩
      ((Put "test1" ⟨"t", 10⟩ (fresh 100)).1)).1)).1)
    (fun k => k == "test2") (by decide)

/-- C5: `Put` returns the duplicate-key error exactly when the key is already
present, leaving the state untouched in that case; on success it inserts the
item and runs the eviction pass (`putItem`). -/
theorem c5_put_duplicate {K V : Type} [DecidableEq K] (c : LRUCache K V)
    (key : K) (v : LRUItem V) :
    Put key v c =
      (if Has key c then (c, some "Key already exists")
       else (putItem key v c, none)) ∧
    (Put key v c).2.isSome = Has key c := by
  unfold Put Has
  cases h : mapLookup key c.items with
  | some w => simp
  | none => simp

/-- C9: `New` fails exactly when `maxSize ≤ 0`; a successful construction
yields an empty cache whose `EmptySpace` equals the capacity. -/
theorem c9_new_construction {K V : Type} [DecidableEq K] (m : Int) :
    ((New m : Option (LRUCache K V)) = none ↔ m ≤ 0) ∧
    (∀ c : LRUCache K V, New m = some c →
      EmptySpace c = m ∧ MaxSize c = m ∧ c.currentSize = 0 ∧
      c.items = [] ∧ c.orderedItems = []) := by
  constructor
  · unfold New
    by_cases hm : m ≤ 0
    · simp [hm]
    · simp [hm]
  · intro c hc
    unfold New at hc
    by_cases hm : m ≤ 0
    · rw [if_pos hm] at hc
      exact Option.noConfusion hc
    · rw [if_neg hm] at hc
      injection hc with hc
      rw [← hc]
      refine ⟨?_, rfl, rfl, rfl, rfl⟩
      show m - 0 = m
      omega

/-- Witness for C9: `New 128` succeeds with `EmptySpace` 128 and fails for no
positive capacity. -/
theorem c9_new_construction_witness :
    EmptySpace (fresh 128) = 128 ∧ MaxSize (fresh 128) = 128 :=
  ⟨((c9_new_construction 128).2 (fresh 128) rfl).1,
   ((c9_new_construction 128).2 (fresh 128) rfl).2.1⟩

/-- C10: item sizes are not validated: `Put` of an item with negative size on
a fresh cache succeeds without error, the item is stored, `currentSize` goes
negative, and `EmptySpace` strictly exceeds `MaxSize`. -/
theorem c10_negative_size_unchecked :
    (Put "neg" ⟨"v", -10⟩ (fresh 128)).2 = none ∧
    Has "neg" (Put "neg" ⟨"v", -10⟩ (fresh 128)).1 = true ∧
    (Put "neg" ⟨"v", -10⟩ (fresh 128)).1.currentSize < 0 ∧
    MaxSize (Put "neg" ⟨"v", -10⟩ (fresh 128)).1 <
      EmptySpace (Put "neg" ⟨"v", -10⟩ (fresh 128)).1 := by
  decide

end LRU
